import Mathlib

/-!
Verification of the SSE stream decoder and accumulator of
`src/public/fix_chat.js` (LLM chat app frontend).

Strings are modelled as `List Char` (JS strings are sequences of code
units; every operation used by the source is character-wise).  Each
definition is a shallow embedding of the JS function named in its doc
comment.
-/

/-! ## StreamDemuxer: `consumeSseEvents` (fix_chat.js lines 199-222) -/

/-- Line 200: `buffer.replace(/\r/g, "")` — remove every carriage return. -/
def stripCR (s : List Char) : List Char := s.filter (fun c => c != '\r')

/-- Line 204: `normalized.indexOf("\n\n")` together with the two `slice`
    calls of lines 205-206: find the leftmost occurrence of two
    consecutive line feeds; return the part before it and the part after
    it, or `none` when there is no occurrence. -/
def splitAtTerminator : List Char → Option (List Char × List Char)
  | [] => none
  | [_] => none
  | c₁ :: c₂ :: rest =>
    if c₁ = '\n' ∧ c₂ = '\n' then some ([], rest)
    else (splitAtTerminator (c₂ :: rest)).map (fun p => (c₁ :: p.1, p.2))

theorem splitAtTerminator_eq_some (s : List Char) :
    ∀ {r t : List Char}, splitAtTerminator s = some (r, t) →
      s = r ++ '\n' :: '\n' :: t := by
  induction s using splitAtTerminator.induct with
  | case1 => intro r t h; simp [splitAtTerminator] at h
  | case2 c => intro r t h; simp [splitAtTerminator] at h
  | case3 c₁ c₂ rest hc =>
    intro r t h
    rw [splitAtTerminator, if_pos hc] at h
    simp only [Option.some.injEq, Prod.mk.injEq] at h
    obtain ⟨h1, h2⟩ := h
    subst h1; subst h2
    simp [hc.1, hc.2]
  | case4 c₁ c₂ rest hc ih =>
    intro r t h
    rw [splitAtTerminator, if_neg hc] at h
    cases hs : splitAtTerminator (c₂ :: rest) with
    | none => rw [hs] at h; simp at h
    | some p =>
      rw [hs] at h
      simp only [Option.map_some', Option.some.injEq] at h
      have hrec := ih (r := p.1) (t := p.2) hs
      injection h with h1 h2
      subst h1; subst h2
      simp [hrec]

theorem splitAtTerminator_length {s r t : List Char}
    (h : splitAtTerminator s = some (r, t)) : t.length < s.length := by
  have hs := splitAtTerminator_eq_some s h
  subst hs
  simp only [List.length_append, List.length_cons]
  omega

theorem splitAtTerminator_append_some (a b : List Char) :
    ∀ {r t : List Char}, splitAtTerminator a = some (r, t) →
      splitAtTerminator (a ++ b) = some (r, t ++ b) := by
  induction a using splitAtTerminator.induct with
  | case1 => intro r t h; simp [splitAtTerminator] at h
  | case2 c => intro r t h; simp [splitAtTerminator] at h
  | case3 c₁ c₂ rest hc =>
    intro r t h
    rw [splitAtTerminator, if_pos hc] at h
    simp only [Option.some.injEq, Prod.mk.injEq] at h
    obtain ⟨h1, h2⟩ := h
    subst h1; subst h2
    simp only [List.cons_append]
    rw [splitAtTerminator, if_pos hc]
  | case4 c₁ c₂ rest hc ih =>
    intro r t h
    rw [splitAtTerminator, if_neg hc] at h
    cases hs : splitAtTerminator (c₂ :: rest) with
    | none => rw [hs] at h; simp at h
    | some p =>
      rw [hs] at h
      simp only [Option.map_some', Option.some.injEq] at h
      injection h with h1 h2
      subst h1; subst h2
      simp only [List.cons_append]
      rw [splitAtTerminator, if_neg hc]
      have hih := ih hs
      rw [List.cons_append] at hih
      rw [hih]
      simp

theorem splitAtTerminator_append_nn_isSome (x y : List Char) :
    (splitAtTerminator (x ++ '\n' :: '\n' :: y)).isSome := by
  induction x with
  | nil =>
    simp only [List.nil_append]
    rw [splitAtTerminator]
    simp
  | cons c x' ih =>
    simp only [List.cons_append]
    cases hx : x' ++ '\n' :: '\n' :: y with
    | nil => simp at hx
    | cons d tail =>
      rw [splitAtTerminator]
      by_cases hc : c = '\n' ∧ d = '\n'
      · rw [if_pos hc]; simp
      · rw [if_neg hc]
        rw [← hx]
        cases hs : splitAtTerminator (x' ++ '\n' :: '\n' :: y) with
        | none => rw [hs] at ih; simp at ih
        | some p => simp

/-- If `r` holds no record terminator, not even one started by its last
    character, then the leftmost terminator of `r ++ "\n\n" ++ t` is the
    explicit one. -/
theorem splitAtTerminator_first (r t : List Char)
    (h : ¬ (['\n', '\n'] <:+: (r ++ ['\n']))) :
    splitAtTerminator (r ++ '\n' :: '\n' :: t) = some (r, t) := by
  induction r with
  | nil =>
    simp only [List.nil_append]
    rw [splitAtTerminator]
    simp
  | cons c r' ih =>
    simp only [List.cons_append]
    cases hx : r' ++ '\n' :: '\n' :: t with
    | nil => simp at hx
    | cons d tail =>
      rw [splitAtTerminator]
      have hcr : ¬(c = '\n' ∧ d = '\n') := by
        intro ⟨hc, hd⟩
        subst hc; subst hd
        apply h
        cases r' with
        | nil => exact ⟨[], [], rfl⟩
        | cons e r'' =>
          rw [List.cons_append] at hx
          injection hx with hx1 hx2
          subst hx1
          exact ⟨[], r'' ++ ['\n'], by simp⟩
      rw [if_neg hcr, ← hx]
      have hsub : ¬ (['\n', '\n'] <:+: (r' ++ ['\n'])) := by
        intro hinf
        obtain ⟨s, u, hsu⟩ := hinf
        exact h ⟨c :: s, u, by simpa using congrArg (List.cons c) hsu⟩
      rw [ih hsub]
      simp

/-- Whitespace as recognized by the JS string methods `trimStart` and
    `trim` (ECMAScript WhiteSpace and LineTerminator characters). -/
def jsWhitespaceChar (c : Char) : Bool :=
  c == ' ' || c == '\t' || c == '\n' || c == '\r' ||
  c == '\x0b' || c == '\x0c' || c == '\u00A0' || c == '\uFEFF' ||
  c == '\u1680' || ('\u2000' ≤ c && c ≤ '\u200A') || c == '\u2028' ||
  c == '\u2029' || c == '\u202F' || c == '\u205F' || c == '\u3000'

/-- `String.prototype.trimStart`. -/
def trimStart (s : List Char) : List Char := s.dropWhile jsWhitespaceChar

/-- Line 208: `rawEvent.split("\n")`.  `"".split("\n")` is `[""]`. -/
def splitLines : List Char → List (List Char)
  | [] => [[]]
  | '\n' :: rest => [] :: splitLines rest
  | c :: rest =>
    match splitLines rest with
    | [] => [[c]]
    | l :: ls => (c :: l) :: ls

/-- The field mark `"data:"` of line 212. -/
def dataFieldMark : List Char := 'd' :: 'a' :: 't' :: 'a' :: ':' :: []

/-- Line 212: `line.startsWith("data:")`. -/
def startsWithData (line : List Char) : Bool := dataFieldMark.isPrefixOf line

/-- Line 218: `dataLines.join("\n")`. -/
def joinNl : List (List Char) → List Char
  | [] => []
  | [l] => l
  | l :: ls => l ++ '\n' :: joinNl ls

/-- Lines 208-218: split one raw record into lines, keep the lines that
    start with `"data:"`, strip the mark and leading whitespace, and join
    with a line feed; a record with no qualifying line yields nothing. -/
def processRecord (rawEvent : List Char) : Option (List Char) :=
  let dataLines := (splitLines rawEvent).filterMap
    (fun line => if startsWithData line then some (trimStart (line.drop 5)) else none)
  if dataLines.isEmpty then none else some (joinNl dataLines)

/-- The `while` loop of lines 204-219, acting on the already normalized
    buffer: repeatedly slice off the part before the leftmost `"\n\n"`,
    process it as a record, and return the collected events together with
    the unterminated remainder. -/
def consumeSseEventsAux (s : List Char) : List (List Char) × List Char :=
  match hs : splitAtTerminator s with
  | none => ([], s)
  | some (rawEvent, rest) =>
    let p := consumeSseEventsAux rest
    match processRecord rawEvent with
    | none => p
    | some payload => (payload :: p.1, p.2)
termination_by s.length
decreasing_by exact splitAtTerminator_length hs

/-- `consumeSseEvents` (lines 199-222): normalize, then extract events.
    The first component is the `events` array, the second the returned
    `buffer` remainder. -/
def consumeSseEvents (buffer : List Char) : List (List Char) × List Char :=
  consumeSseEventsAux (stripCR buffer)

theorem consumeSseEventsAux_of_none {s : List Char}
    (h : splitAtTerminator s = none) : consumeSseEventsAux s = ([], s) := by
  conv_lhs => rw [consumeSseEventsAux.eq_def]
  split
  · rfl
  · rename_i heq
    rw [h] at heq
    exact absurd heq (by simp)

theorem consumeSseEventsAux_of_some {s rawEvent rest : List Char}
    (h : splitAtTerminator s = some (rawEvent, rest)) :
    consumeSseEventsAux s =
      match processRecord rawEvent with
      | none => consumeSseEventsAux rest
      | some payload =>
        (payload :: (consumeSseEventsAux rest).1, (consumeSseEventsAux rest).2) := by
  conv_lhs => rw [consumeSseEventsAux.eq_def]
  split
  · rename_i heq
    rw [h] at heq
    exact absurd heq (by simp)
  · rename_i r' t' heq
    rw [h] at heq
    injection heq with heq'
    injection heq' with h1 h2
    subst h1; subst h2
    cases processRecord rawEvent <;> rfl

theorem stripCR_append (a b : List Char) :
    stripCR (a ++ b) = stripCR a ++ stripCR b := List.filter_append ..

theorem not_mem_stripCR (s : List Char) : '\r' ∉ stripCR s := by
  intro hmem
  have := List.of_mem_filter hmem
  simp at this

theorem stripCR_eq_self_of {s : List Char} (h : '\r' ∉ s) : stripCR s = s := by
  apply List.filter_eq_self.mpr
  intro a ha
  simp only [bne_iff_ne, ne_eq]
  intro hv
  exact h (hv ▸ ha)

theorem consumeSseEventsAux_snd_noCR (s : List Char) :
    '\r' ∉ s → '\r' ∉ (consumeSseEventsAux s).2 := by
  induction s using consumeSseEventsAux.induct with
  | case1 s hnone =>
    intro h
    rw [consumeSseEventsAux_of_none hnone]
    exact h
  | case2 s rawEvent rest hsome hrec ih =>
    intro h
    rw [consumeSseEventsAux_of_some hsome, hrec]
    refine ih fun hr => ?_
    exact h (splitAtTerminator_eq_some s hsome ▸
      (List.mem_append.mpr (Or.inr (by simp [hr]))))
  | case3 s rawEvent rest hsome payload hrec ih =>
    intro h
    rw [consumeSseEventsAux_of_some hsome, hrec]
    refine ih fun hr => ?_
    exact h (splitAtTerminator_eq_some s hsome ▸
      (List.mem_append.mpr (Or.inr (by simp [hr]))))

theorem consumeSseEventsAux_snd_noTerm (s : List Char) :
    splitAtTerminator (consumeSseEventsAux s).2 = none := by
  induction s using consumeSseEventsAux.induct with
  | case1 s hnone =>
    rw [consumeSseEventsAux_of_none hnone]
    exact hnone
  | case2 s rawEvent rest hsome hrec ih =>
    rw [consumeSseEventsAux_of_some hsome, hrec]
    exact ih
  | case3 s rawEvent rest hsome payload hrec ih =>
    rw [consumeSseEventsAux_of_some hsome, hrec]
    exact ih

theorem consumeSseEventsAux_append (a : List Char) :
    ∀ b, consumeSseEventsAux (a ++ b) =
      ((consumeSseEventsAux a).1 ++
        (consumeSseEventsAux ((consumeSseEventsAux a).2 ++ b)).1,
       (consumeSseEventsAux ((consumeSseEventsAux a).2 ++ b)).2) := by
  induction a using consumeSseEventsAux.induct with
  | case1 a hnone =>
    intro b
    rw [consumeSseEventsAux_of_none hnone]
    simp
  | case2 a rawEvent rest hsome hrec ih =>
    intro b
    have hsplit := splitAtTerminator_append_some a b hsome
    rw [consumeSseEventsAux_of_some hsome, consumeSseEventsAux_of_some hsplit, hrec]
    exact ih b
  | case3 a rawEvent rest hsome payload hrec ih =>
    intro b
    have hsplit := splitAtTerminator_append_some a b hsome
    rw [consumeSseEventsAux_of_some hsome, consumeSseEventsAux_of_some hsplit, hrec]
    rw [ih b]
    simp

theorem consumeSseEvents_append (a b : List Char) :
    consumeSseEvents (a ++ b) =
      ((consumeSseEvents a).1 ++
        (consumeSseEvents ((consumeSseEvents a).2 ++ b)).1,
       (consumeSseEvents ((consumeSseEvents a).2 ++ b)).2) := by
  unfold consumeSseEvents
  rw [stripCR_append, consumeSseEventsAux_append (stripCR a) (stripCR b)]
  have hbuf : stripCR ((consumeSseEventsAux (stripCR a)).2 ++ b) =
      (consumeSseEventsAux (stripCR a)).2 ++ stripCR b := by
    rw [stripCR_append,
      stripCR_eq_self_of (consumeSseEventsAux_snd_noCR (stripCR a) (not_mem_stripCR a))]
  rw [hbuf]

/-! ## The read loop of `sendMessage` (fix_chat.js lines 120-154) -/

/-- The per-chunk part of the read loop (lines 139-144): append the chunk
    to the carried buffer, extract complete events, and carry the returned
    remainder forward.  Collects the events of every pass in order. -/
def feedLoop : List (List Char) → List Char → List (List Char) × List Char
  | [], buf => ([], buf)
  | c :: cs, buf =>
    let p := consumeSseEvents (buf ++ c)
    let q := feedLoop cs p.2
    (p.1 ++ q.1, q.2)

/-- The whole demuxing work of one stream (lines 120-154): feed every
    chunk, then flush the final buffer with a synthetic `"\n\n"`
    terminator (line 127) and collect all emitted event payloads. -/
def feedAll (chunks : List (List Char)) : List (List Char) :=
  let p := feedLoop chunks []
  p.1 ++ (consumeSseEvents (p.2 ++ '\n' :: '\n' :: [])).1

theorem feedLoop_eq_onePass (chunks : List (List Char)) :
    ∀ buf, '\r' ∉ buf → splitAtTerminator buf = none →
      feedLoop chunks buf = consumeSseEvents (buf ++ chunks.flatten) := by
  induction chunks with
  | nil =>
    intro buf h1 h2
    simp only [feedLoop, List.flatten_nil, List.append_nil]
    unfold consumeSseEvents
    rw [stripCR_eq_self_of h1, consumeSseEventsAux_of_none h2]
  | cons c cs ih =>
    intro buf h1 h2
    simp only [feedLoop, List.flatten_cons]
    have hnoCR : '\r' ∉ (consumeSseEvents (buf ++ c)).2 :=
      consumeSseEventsAux_snd_noCR (stripCR (buf ++ c)) (not_mem_stripCR (buf ++ c))
    have hnoTerm : splitAtTerminator (consumeSseEvents (buf ++ c)).2 = none :=
      consumeSseEventsAux_snd_noTerm (stripCR (buf ++ c))
    rw [ih (consumeSseEvents (buf ++ c)).2 hnoCR hnoTerm]
    rw [← List.append_assoc]
    rw [consumeSseEvents_append (buf ++ c) cs.flatten]

theorem feedAll_eq_onePass (chunks : List (List Char)) :
    feedAll chunks =
      (consumeSseEvents (chunks.flatten ++ '\n' :: '\n' :: [])).1 := by
  unfold feedAll
  rw [feedLoop_eq_onePass chunks [] (by simp) rfl]
  simp only [List.nil_append]
  rw [consumeSseEvents_append chunks.flatten ('\n' :: '\n' :: [])]

/-! ## A model of `JSON.parse` (used at fix_chat.js line 242)

JSON values as produced by `JSON.parse`.  A number is kept as its source
lexeme: the only uses the program makes of a number are its truthiness
and its string coercion, and no theorem below depends on the double
rounding or formatting of a numeric value. -/
inductive JsValue where
  | null
  | bool (b : Bool)
  | num (lexeme : List Char)
  | str (s : List Char)
  | arr (elems : List JsValue)
  | obj (fields : List (List Char × JsValue))

/-- JSON inter-token whitespace (space, tab, line feed, carriage return). -/
def jsonWsChar (c : Char) : Bool :=
  c == ' ' || c == '\t' || c == '\n' || c == '\r'

def skipWs (s : List Char) : List Char := s.dropWhile jsonWsChar

def isJsonDigit (c : Char) : Bool := '0' ≤ c && c ≤ '9'

def hexVal (c : Char) : Option Nat :=
  if '0' ≤ c ∧ c ≤ '9' then some (c.toNat - '0'.toNat)
  else if 'a' ≤ c ∧ c ≤ 'f' then some (c.toNat - 'a'.toNat + 10)
  else if 'A' ≤ c ∧ c ≤ 'F' then some (c.toNat - 'A'.toNat + 10)
  else none

def pushChar (c : Char) (res : Option (List Char × List Char)) :
    Option (List Char × List Char) :=
  res.map (fun p => (c :: p.1, p.2))

/-- Named escape sequences of JSON strings. -/
def escChar (e : Char) : Option Char :=
  if e == '"' then some '"'
  else if e == '\\' then some '\\'
  else if e == '/' then some '/'
  else if e == 'b' then some (Char.ofNat 8)
  else if e == 'f' then some (Char.ofNat 12)
  else if e == 'n' then some '\n'
  else if e == 'r' then some '\r'
  else if e == 't' then some '\t'
  else none

/-- Body of a JSON string after the opening quote; returns the decoded
    characters and the rest after the closing quote.  An unescaped
    control character is a parse error, as in `JSON.parse`.  A `\\u`
    escape decodes to the character with that code (lone surrogate
    escapes, which `Char` cannot carry, are outside this model: none of
    the payloads reasoned about below contains one). -/
def parseStringBody : List Char → Option (List Char × List Char)
  | [] => none
  | '"' :: rest => some ([], rest)
  | '\\' :: 'u' :: h1 :: h2 :: h3 :: h4 :: rest =>
    match hexVal h1, hexVal h2, hexVal h3, hexVal h4 with
    | some a, some b, some c, some d =>
      pushChar (Char.ofNat (((a * 16 + b) * 16 + c) * 16 + d)) (parseStringBody rest)
    | _, _, _, _ => none
  | '\\' :: e :: rest =>
    match escChar e with
    | some c => pushChar c (parseStringBody rest)
    | none => none
  | c :: rest =>
    if c.toNat < 32 then none else pushChar c (parseStringBody rest)

def takeDigits (s : List Char) : List Char × List Char :=
  (s.takeWhile isJsonDigit, s.dropWhile isJsonDigit)

/-- Integer part of a JSON number: `0`, or a nonzero digit followed by
    digits. -/
def parseIntPart : List Char → Option (List Char × List Char)
  | [] => none
  | c :: rest =>
    if c == '0' then some (['0'], rest)
    else if isJsonDigit c then
      some (c :: (takeDigits rest).1, (takeDigits rest).2)
    else none

/-- Optional fraction part: `.` followed by one or more digits. -/
def parseFracPart (s : List Char) : Option (List Char × List Char) :=
  match s with
  | '.' :: rest =>
    match takeDigits rest with
    | ([], _) => none
    | (ds, r) => some ('.' :: ds, r)
  | _ => some ([], s)

/-- Optional exponent part: `e` or `E`, an optional sign, one or more
    digits. -/
def parseExpPart (s : List Char) : Option (List Char × List Char) :=
  match s with
  | c :: rest =>
    if c == 'e' || c == 'E' then
      match rest with
      | '+' :: r =>
        match takeDigits r with
        | ([], _) => none
        | (ds, r2) => some (c :: '+' :: ds, r2)
      | '-' :: r =>
        match takeDigits r with
        | ([], _) => none
        | (ds, r2) => some (c :: '-' :: ds, r2)
      | _ =>
        match takeDigits rest with
        | ([], _) => none
        | (ds, r2) => some (c :: ds, r2)
    else some ([], s)
  | [] => some ([], s)

/-- A JSON number token, kept as its lexeme. -/
def parseNumberTok (s : List Char) : Option (JsValue × List Char) :=
  match s with
  | '-' :: s1 =>
    match parseIntPart s1 with
    | none => none
    | some (ip, s2) =>
      match parseFracPart s2 with
      | none => none
      | some (fp, s3) =>
        match parseExpPart s3 with
        | none => none
        | some (ep, s4) => some (.num ('-' :: (ip ++ fp ++ ep)), s4)
  | _ =>
    match parseIntPart s with
    | none => none
    | some (ip, s2) =>
      match parseFracPart s2 with
      | none => none
      | some (fp, s3) =>
        match parseExpPart s3 with
        | none => none
        | some (ep, s4) => some (.num (ip ++ fp ++ ep), s4)

mutual

/-- A JSON value.  Fuel bounds the nesting depth; `jsonParse` supplies
    more fuel than any input of its length can consume. -/
def parseValue : Nat → List Char → Option (JsValue × List Char)
  | 0, _ => none
  | Nat.succ fuel, s =>
    match s with
    | 'n' :: 'u' :: 'l' :: 'l' :: rest => some (.null, rest)
    | 't' :: 'r' :: 'u' :: 'e' :: rest => some (.bool true, rest)
    | 'f' :: 'a' :: 'l' :: 's' :: 'e' :: rest => some (.bool false, rest)
    | '"' :: rest =>
      match parseStringBody rest with
      | some (cs, r) => some (.str cs, r)
      | none => none
    | '[' :: rest =>
      match skipWs rest with
      | ']' :: r => some (.arr [], r)
      | _ => parseElems fuel rest []
    | '{' :: rest =>
      match skipWs rest with
      | '}' :: r => some (.obj [], r)
      | _ => parseMembers fuel rest []
    | _ => parseNumberTok s

/-- The elements of a nonempty JSON array, after the opening bracket. -/
def parseElems : Nat → List Char → List JsValue → Option (JsValue × List Char)
  | 0, _, _ => none
  | Nat.succ fuel, s, acc =>
    match parseElement fuel s with
    | none => none
    | some (v, r) =>
      match r with
      | ',' :: r2 => parseElems fuel r2 (acc ++ [v])
      | ']' :: r2 => some (.arr (acc ++ [v]), r2)
      | _ => none

/-- The members of a nonempty JSON object, after the opening brace. -/
def parseMembers : Nat → List Char → List (List Char × JsValue) →
    Option (JsValue × List Char)
  | 0, _, _ => none
  | Nat.succ fuel, s, acc =>
    match skipWs s with
    | '"' :: rest =>
      match parseStringBody rest with
      | none => none
      | some (key, r1) =>
        match skipWs r1 with
        | ':' :: r2 =>
          match parseElement fuel r2 with
          | none => none
          | some (v, r3) =>
            match r3 with
            | ',' :: r4 => parseMembers fuel r4 (acc ++ [(key, v)])
            | '}' :: r4 => some (.obj (acc ++ [(key, v)]), r4)
            | _ => none
        | _ => none
    | _ => none

/-- A JSON element: a value with surrounding whitespace. -/
def parseElement : Nat → List Char → Option (JsValue × List Char)
  | 0, _ => none
  | Nat.succ fuel, s =>
    match parseValue fuel (skipWs s) with
    | some (v, r) => some (v, skipWs r)
    | none => none

end

/-- `JSON.parse` on a whole text: parse one element and require that
    nothing follows it. -/
def jsonParse (s : List Char) : Option JsValue :=
  match parseElement (4 * s.length + 4) s with
  | some (v, rest) => if rest = [] then some v else none
  | none => none

/-! ## DeltaAccumulator: `processSseDataChunk` (fix_chat.js lines 235-264) -/

def isNull : JsValue → Bool
  | .null => true
  | _ => false

/-- Property lookup in a parsed object.  `JSON.parse` keeps every member
    in source order and a duplicated key overrides the earlier value, so
    the last matching member wins. -/
def lookupField (fields : List (List Char × JsValue)) (key : List Char) :
    Option JsValue :=
  fields.foldl (fun acc f => if f.1 = key then some f.2 else acc) none

/-- JS property access `v.key` on a non-null value; `none` is JS
    `undefined`.  Only object values carry the properties this program
    reads (`response`, `choices`, `delta`, `content`); on every other
    value those accesses yield `undefined`. -/
def jsGetProp : JsValue → List Char → Option JsValue
  | .obj fields, key => lookupField fields key
  | _, _ => none

/-- JS index access `v[0]` on a non-null value: the first array element,
    an object member named `"0"`, or the first character of a string. -/
def jsGetIndexZero : JsValue → Option JsValue
  | .arr xs => xs.head?
  | .obj fields => lookupField fields ['0']
  | .str s =>
    match s with
    | [] => none
    | c :: _ => some (.str [c])
  | _ => none

def responseKey : List Char := 'r' :: 'e' :: 's' :: 'p' :: 'o' :: 'n' :: 's' :: 'e' :: []
def choicesKey : List Char := 'c' :: 'h' :: 'o' :: 'i' :: 'c' :: 'e' :: 's' :: []
def deltaKey : List Char := 'd' :: 'e' :: 'l' :: 't' :: 'a' :: []
def contentKey : List Char := 'c' :: 'o' :: 'n' :: 't' :: 'e' :: 'n' :: 't' :: []

/-- The optional chain `jsonData.choices?.[0]?.delta?.content` of line
    250, evaluated on a non-null `jsonData`: each `?.` yields `undefined`
    when its base is `null` or `undefined`. -/
def chainContent (jsonData : JsValue) : Option JsValue :=
  match jsGetProp jsonData choicesKey with
  | none => none
  | some c =>
    if isNull c then none
    else
      match jsGetIndexZero c with
      | none => none
      | some e =>
        if isNull e then none
        else
          match jsGetProp e deltaKey with
          | none => none
          | some d =>
            if isNull d then none
            else jsGetProp d contentKey

/-- Whether a JSON number lexeme denotes zero: every digit of the
    mantissa is `0`.  (A nonzero mantissa with an exponent so small that
    the double underflows to zero is outside this model; no theorem
    below evaluates the truthiness of a number.) -/
def numIsZero (lexeme : List Char) : Bool :=
  (lexeme.takeWhile (fun c => c != 'e' && c != 'E')).all
    (fun c => !(isJsonDigit c) || c == '0')

/-- JS truthiness of a parsed JSON value (`undefined` is handled by the
    callers through `Option`). -/
def jsTruthy : JsValue → Bool
  | .null => false
  | .bool b => b
  | .num lexeme => !(numIsZero lexeme)
  | .str s => !s.isEmpty
  | .arr _ => true
  | .obj _ => true

mutual

/-- JS string coercion of a parsed JSON value, as performed by
    `responseText += content` on line 256.  A number is rendered as its
    lexeme (JS reformats the parsed double; no theorem below coerces a
    number). -/
def jsToString : JsValue → List Char
  | .null => 'n' :: 'u' :: 'l' :: 'l' :: []
  | .bool true => 't' :: 'r' :: 'u' :: 'e' :: []
  | .bool false => 'f' :: 'a' :: 'l' :: 's' :: 'e' :: []
  | .num lexeme => lexeme
  | .str s => s
  | .arr xs => arrElemsToString xs
  | .obj _ => "[object Object]".toList

/-- JS `Array.prototype.toString`: elements joined with commas, a null
    element rendered as the empty string. -/
def arrElemsToString : List JsValue → List Char
  | [] => []
  | JsValue.null :: [] => []
  | v :: [] => jsToString v
  | JsValue.null :: v :: vs => ',' :: arrElemsToString (v :: vs)
  | u :: v :: vs => jsToString u ++ ',' :: arrElemsToString (v :: vs)

end

/-- Lines 243-252: the value held by the local `content` after the two
    delta-shape checks.  `content` starts as the empty string; it becomes
    `jsonData.response` when that is a nonempty string, else the chained
    `choices[0].delta.content` value when that is truthy. -/
def contentOf (jsonData : JsValue) : JsValue :=
  match jsGetProp jsonData responseKey with
  | some (.str s) =>
    if 0 < s.length then .str s
    else
      match chainContent jsonData with
      | some v => if jsTruthy v then v else .str []
      | none => .str []
  | _ =>
    match chainContent jsonData with
    | some v => if jsTruthy v then v else .str []
    | none => .str []

def doneMarker : List Char := '[' :: 'D' :: 'O' :: 'N' :: 'E' :: ']' :: []

/-- `processSseDataChunk` (lines 235-264).  Returns the updated response
    text and whether `flushAssistantText` was invoked.  The function is
    total: a `JSON.parse` failure, and the `TypeError` thrown by
    `jsonData.response` when the payload parses to `null`, are caught by
    the `try`/`catch` of lines 241-261, which logs and leaves the
    response text unchanged. -/
def processSseDataChunk (data responseText : List Char) : List Char × Bool :=
  if data = doneMarker then (responseText, false)
  else
    match jsonParse data with
    | none => (responseText, false)
    | some jsonData =>
      if isNull jsonData then (responseText, false)
      else
        let content := contentOf jsonData
        if jsTruthy content then (responseText ++ jsToString content, true)
        else (responseText, false)

/-- The delta a payload contributes: what `processSseDataChunk` appends
    to an empty response text. -/
def delta (data : List Char) : List Char := (processSseDataChunk data []).1

/-- Ingesting a list of payloads in order, threading the response text
    (the accumulator view of the loop bodies at lines 128-135 and
    146-153, without the sentinel break). -/
def ingestAll (ps : List (List Char)) (rt : List Char) : List Char :=
  ps.foldl (fun acc p => (processSseDataChunk p acc).1) rt

/-- One batch of the read loop (lines 146-153): process payloads in
    order, but `break` on the `"[DONE]"` sentinel.  Returns the final
    response text and how many display flushes the batch triggered. -/
def runBatch : List (List Char) → List Char → List Char × Nat
  | [], rt => (rt, 0)
  | d :: rest, rt =>
    if d = doneMarker then (rt, 0)
    else
      let p := processSseDataChunk d rt
      let q := runBatch rest p.1
      (q.1, (if p.2 then 1 else 0) + q.2)

/-! ## The `sendMessage` entry guard (fix_chat.js lines 56-78) -/

/-- `String.prototype.trim`: drop JS whitespace from both ends. -/
def jsTrim (s : List Char) : List Char :=
  ((s.dropWhile jsWhitespaceChar).reverse.dropWhile jsWhitespaceChar).reverse

structure ChatMessage where
  role : List Char
  content : List Char
deriving DecidableEq

/-- The session state the guard reads and writes: the module-level
    `chatHistory` and `isProcessing` of lines 14-21, modelled as an
    explicit object (spec section 9). -/
structure ChatSession where
  chatHistory : List ChatMessage
  isProcessing : Bool
deriving DecidableEq

def userRole : List Char := 'u' :: 's' :: 'e' :: 'r' :: []

/-- The synchronous entry of `sendMessage` (lines 56-78): trim the input;
    an empty message or a busy session returns at once with nothing
    changed; otherwise the busy flag is set and the user message appended
    to the history before the request is issued.  The second component
    records whether a request is issued (the DOM effects and the fetch
    itself are external collaborators, outside this model). -/
def sendMessageGuard (input : List Char) (s : ChatSession) : ChatSession × Bool :=
  let message := jsTrim input
  if message = [] ∨ s.isProcessing then (s, false)
  else
    ({ chatHistory := s.chatHistory ++ [⟨userRole, message⟩], isProcessing := true },
     true)

/-! ## The delta extraction policy as the spec states it (amended) -/

/-- Modelled from the spec's delta extraction policy, amended: (a) a
    `response` field holding a nonempty string is the delta; (b) else a
    truthy value at `choices[0].delta.content` is the delta after string
    coercion (a truthy string coerces to itself); (c) else the delta is
    empty.  The unamended policy restricts (b) to truthy strings. -/
def specDelta (v : JsValue) : List Char :=
  match jsGetProp v responseKey with
  | some (.str s) =>
    if s ≠ [] then s
    else
      match chainContent v with
      | some w => if jsTruthy w then jsToString w else []
      | none => []
  | _ =>
    match chainContent v with
    | some w => if jsTruthy w then jsToString w else []
    | none => []

/-! ## Supporting lemmas about the accumulator -/

/-- `processSseDataChunk` only ever appends: the result on any response
    text is the old text followed by the payload's delta, and whether the
    display is flushed does not depend on the text. -/
theorem processSseDataChunk_shift (data rt : List Char) :
    processSseDataChunk data rt =
      (rt ++ (processSseDataChunk data []).1, (processSseDataChunk data []).2) := by
  unfold processSseDataChunk
  by_cases hd : data = doneMarker
  · simp [hd]
  · rw [if_neg hd, if_neg hd]
    cases jsonParse data with
    | none => simp
    | some jsonData =>
      by_cases hn : isNull jsonData
      · simp [hn]
      · simp only [hn, Bool.false_eq_true, if_false]
        by_cases ht : jsTruthy (contentOf jsonData)
        · simp [ht]
        · simp [ht]

theorem delta_eq (data rt : List Char) :
    (processSseDataChunk data rt).1 = rt ++ delta data := by
  rw [processSseDataChunk_shift]
  rfl

theorem ingestAll_eq_concat (ps : List (List Char)) :
    ∀ rt, ingestAll ps rt = rt ++ (ps.map delta).flatten := by
  induction ps with
  | nil => intro rt; simp [ingestAll]
  | cons p ps ih =>
    intro rt
    simp only [ingestAll, List.foldl_cons, List.map_cons, List.flatten_cons]
    rw [delta_eq]
    have := ih (rt ++ delta p)
    simp only [ingestAll] at this
    rw [this, List.append_assoc]

/-- The amended extraction policy agrees with what the code computes. -/
theorem specDelta_eq_contentOf (v : JsValue) :
    specDelta v =
      (if jsTruthy (contentOf v) then jsToString (contentOf v) else []) := by
  unfold specDelta contentOf
  cases hresp : jsGetProp v responseKey with
  | none =>
    cases hch : chainContent v with
    | none => rfl
    | some w =>
      by_cases hw : jsTruthy w = true
      · simp [hw]
      · simp only [if_neg hw]; rfl
  | some r =>
    cases r with
    | str s =>
      by_cases hs : s = []
      · subst hs
        simp only [ne_eq, not_true_eq_false, if_false, List.length_nil,
          Nat.lt_irrefl]
        cases hch : chainContent v with
        | none => rfl
        | some w =>
          by_cases hw : jsTruthy w = true
          · simp [hw]
          · simp only [if_neg hw]; rfl
      · have hlen : 0 < s.length := List.length_pos.mpr hs
        have htr : jsTruthy (JsValue.str s) = true := by
          simp [jsTruthy, hs]
        simp [hs, hlen, htr, jsToString]
    | null =>
      cases hch : chainContent v with
      | none => rfl
      | some w =>
        by_cases hw : jsTruthy w = true
        · simp [hw]
        · simp only [if_neg hw]; rfl
    | bool b =>
      cases hch : chainContent v with
      | none => rfl
      | some w =>
        by_cases hw : jsTruthy w = true
        · simp [hw]
        · simp only [if_neg hw]; rfl
    | num lexeme =>
      cases hch : chainContent v with
      | none => rfl
      | some w =>
        by_cases hw : jsTruthy w = true
        · simp [hw]
        · simp only [if_neg hw]; rfl
    | arr xs =>
      cases hch : chainContent v with
      | none => rfl
      | some w =>
        by_cases hw : jsTruthy w = true
        · simp [hw]
        · simp only [if_neg hw]; rfl
    | obj fields =>
      cases hch : chainContent v with
      | none => rfl
      | some w =>
        by_cases hw : jsTruthy w = true
        · simp [hw]
        · simp only [if_neg hw]; rfl

/-! ## A structurally recursive evaluator for the extraction loop

`consumeSseEventsAux` recurses on a well-founded measure, which the
kernel does not reduce on closed inputs; this fuel-indexed twin computes
the same result once the fuel covers the input length. -/
def consumeSseEventsAuxFuel : Nat → List Char → List (List Char) × List Char
  | 0, s => ([], s)
  | Nat.succ fuel, s =>
    match splitAtTerminator s with
    | none => ([], s)
    | some (rawEvent, rest) =>
      let p := consumeSseEventsAuxFuel fuel rest
      match processRecord rawEvent with
      | none => p
      | some payload => (payload :: p.1, p.2)

theorem consumeSseEventsAux_eq_fuel (n : Nat) :
    ∀ s : List Char, s.length ≤ n →
      consumeSseEventsAux s = consumeSseEventsAuxFuel n s := by
  induction n with
  | zero =>
    intro s h
    have hnil : s = [] := List.eq_nil_of_length_eq_zero (Nat.le_zero.mp h)
    subst hnil
    rw [consumeSseEventsAux_of_none (s := []) rfl]
    rfl
  | succ n ih =>
    intro s h
    cases hsplit : splitAtTerminator s with
    | none =>
      rw [consumeSseEventsAux_of_none hsplit]
      simp [consumeSseEventsAuxFuel, hsplit]
    | some p =>
      obtain ⟨rawEvent, rest⟩ := p
      rw [consumeSseEventsAux_of_some hsplit]
      have hlen : rest.length ≤ n := by
        have := splitAtTerminator_length hsplit
        omega
      rw [ih rest hlen]
      simp only [consumeSseEventsAuxFuel, hsplit]

theorem consumeSseEvents_eq_fuel (buffer : List Char) :
    consumeSseEvents buffer =
      consumeSseEventsAuxFuel buffer.length (stripCR buffer) := by
  unfold consumeSseEvents
  exact consumeSseEventsAux_eq_fuel buffer.length (stripCR buffer)
    (List.length_filter_le _ _)

/-! ## The claims -/

/-- C1: Chunk-split invariance of the demuxer: feeding any chunking of a
    fixed SSE text through the buffered extraction loop (carrying the
    returned buffer forward) followed by the end-of-stream flush on
    `buffer ++ "\n\n"` emits a sequence of event payloads that depends
    only on the concatenated text, wherever the split points fall —
    including splits inside the terminator, a `data:` mark, or a JSON
    payload. -/
theorem chunk_split_invariance (chunks chunks' : List (List Char))
    (h : chunks.flatten = chunks'.flatten) :
    feedAll chunks = feedAll chunks' := by
  rw [feedAll_eq_onePass, feedAll_eq_onePass, h]

theorem chunk_split_invariance_witness :
    feedAll [("data: \x7b\"respo".toList),
             ("nse\":\"Hel\"\x7d\n\ndata: \x7b\"response\":\"lo\"\x7d\n\n".toList)] =
      feedAll [("data: \x7b\"respo".toList) ++
               ("nse\":\"Hel\"\x7d\n\ndata: \x7b\"response\":\"lo\"\x7d\n\n".toList)] :=
  chunk_split_invariance _ _ (by decide)

/-- C2: Accumulator correctness and monotonicity: ingesting payloads
    P1..Pn (none the sentinel) in order leaves the response text equal to
    the starting text followed by the concatenation of each payload's
    extracted delta, and every single ingest step returns a string of
    which the previous response text is a prefix. -/
theorem accumulator_concat_monotone (ps : List (List Char)) (rt : List Char)
    (h : ∀ p ∈ ps, p ≠ doneMarker) :
    ingestAll ps rt = rt ++ (ps.map delta).flatten ∧
    ∀ q rt' : List Char, rt' <+: (processSseDataChunk q rt').1 :=
  ⟨ingestAll_eq_concat ps rt, fun q rt' => by
    rw [delta_eq]
    exact List.prefix_append rt' (delta q)⟩

theorem accumulator_concat_monotone_witness :
    ingestAll [("\x7b\"response\":\"Hel\"\x7d".toList),
               ("\x7b\"response\":\"lo\"\x7d".toList)] [] =
      [] ++ ([("\x7b\"response\":\"Hel\"\x7d".toList),
              ("\x7b\"response\":\"lo\"\x7d".toList)].map delta).flatten :=
  (accumulator_concat_monotone _ _ (by decide)).1

/-- C5: The sentinel halts the batch: in one demuxer batch, every payload
    after a `"[DONE]"` is discarded — the batch result (response text and
    display-flush count) is exactly that of the payloads before the
    sentinel, whatever follows it. -/
theorem done_sentinel_halts_batch (pre post : List (List Char)) (rt : List Char) :
    runBatch (pre ++ doneMarker :: post) rt = runBatch pre rt := by
  induction pre generalizing rt with
  | nil => simp [runBatch]
  | cons d pre ih =>
    simp only [List.cons_append, runBatch]
    by_cases hd : d = doneMarker
    · simp [hd]
    · simp [hd, ih]

/-- C6: Exhaustive extraction: the buffer returned by `consumeSseEvents`
    never contains two consecutive line feeds — every complete record
    terminator present at call time is consumed in that same call. -/
theorem pending_buffer_no_terminator (buffer : List Char) :
    ¬ (['\n', '\n'] <:+: (consumeSseEvents buffer).2) := by
  intro hinf
  obtain ⟨x, y, hxy⟩ := hinf
  have hsome := splitAtTerminator_append_nn_isSome x y
  have hx2 : x ++ ['\n', '\n'] ++ y = x ++ '\n' :: '\n' :: y := by simp
  rw [← hx2, hxy] at hsome
  have hnone := consumeSseEventsAux_snd_noTerm (stripCR buffer)
  rw [show (consumeSseEvents buffer).2 =
        (consumeSseEventsAux (stripCR buffer)).2 from rfl] at hsome
  rw [hnone] at hsome
  simp at hsome

/-- C9: Exchange serialization: while an exchange is in flight (the busy
    flag is set), or when the trimmed input is empty, `sendMessage`
    returns at once — the chat history, the busy flag and the rest of the
    session are untouched and no request is issued. -/
theorem send_message_guard_rejects (input : List Char) (s : ChatSession)
    (h : s.isProcessing = true ∨ jsTrim input = []) :
    sendMessageGuard input s = (s, false) := by
  unfold sendMessageGuard
  rcases h with h | h
  · rw [if_pos (Or.inr h)]
  · rw [if_pos (Or.inl h)]

theorem send_message_guard_rejects_witness :
    sendMessageGuard ('h' :: 'i' :: [])
        { chatHistory := [], isProcessing := true } =
      ({ chatHistory := [], isProcessing := true }, false) :=
  send_message_guard_rejects _ _ (Or.inl rfl)

/-- C10: A line that is exactly `"data:"` qualifies: a complete record
    whose only line is `"data:"` emits the empty-string payload (it is
    not dropped), and ingesting the empty payload is a no-op that leaves
    the response text unchanged and does not flush the display. -/
theorem empty_data_value_payload :
    consumeSseEvents ('d' :: 'a' :: 't' :: 'a' :: ':' :: '\n' :: '\n' :: []) =
      ([[]], []) ∧
    ∀ rt : List Char, processSseDataChunk [] rt = (rt, false) := by
  constructor
  · rw [consumeSseEvents_eq_fuel]
    decide
  · intro rt
    rfl

/-- C3 counterexample: the payload parses as JSON, has no `response`
    field, and holds the non-string truthy value `true` at
    `choices[0].delta.content`; the claim as stated then demands an empty
    delta, but the code appends the string coercion `"true"` to the
    response text and flushes the display. -/
theorem delta_policy_counterexample :
    jsonParse ("\x7b\"choices\":[\x7b\"delta\":\x7b\"content\":true\x7d\x7d]\x7d".toList) =
      some (JsValue.obj [(choicesKey, JsValue.arr
        [JsValue.obj [(deltaKey, JsValue.obj [(contentKey, JsValue.bool true)])]])]) ∧
    processSseDataChunk
        ("\x7b\"choices\":[\x7b\"delta\":\x7b\"content\":true\x7d\x7d]\x7d".toList) [] =
      ('t' :: 'r' :: 'u' :: 'e' :: [], true) :=
  ⟨rfl, by decide⟩

/-- C3 (amended): for every payload that parses as JSON, the delta is
    extracted first-match-wins: a `response` field holding a nonempty
    string wins; else a truthy value at `choices[0].delta.content` is
    taken after JS string coercion (a truthy string is taken as-is);
    otherwise the delta is empty and the payload is a no-op, not an
    error.  (The claim as frozen restricts the second rule to truthy
    strings; the code coerces any truthy value.) -/
theorem delta_policy_first_match (data : List Char) (v : JsValue) (rt : List Char)
    (hp : jsonParse data = some v) (hd : data ≠ doneMarker) :
    (processSseDataChunk data rt).1 = rt ++ specDelta v := by
  unfold processSseDataChunk
  rw [if_neg hd, hp]
  by_cases hn : isNull v = true
  · have hv : v = JsValue.null := by
      cases v <;> simp_all [isNull]
    subst hv
    have hsd : specDelta JsValue.null = [] := rfl
    simp [isNull, hsd]
  · rw [specDelta_eq_contentOf]
    by_cases ht : jsTruthy (contentOf v) = true
    · simp [hn, ht]
    · simp [hn, ht]

theorem delta_policy_first_match_witness :
    (processSseDataChunk ("\x7b\"response\":\"hi\"\x7d".toList) []).1 =
      [] ++ specDelta (JsValue.obj [(responseKey, JsValue.str ('h' :: 'i' :: []))]) :=
  delta_policy_first_match _ _ [] rfl (by decide)

/-- C4: Malformed-payload recovery with atomicity: a payload that fails
    JSON parsing raises nothing to the caller (the embedding is total),
    leaves the response text unchanged, does not flush the display, and
    later payloads are ingested exactly as if the malformed one were
    absent. -/
theorem malformed_payload_recovery (data rt : List Char)
    (h : jsonParse data = none) :
    processSseDataChunk data rt = (rt, false) ∧
    ∀ rest, ingestAll (data :: rest) rt = ingestAll rest rt := by
  have hbase : processSseDataChunk data rt = (rt, false) := by
    unfold processSseDataChunk
    by_cases hd : data = doneMarker
    · rw [if_pos hd]
    · rw [if_neg hd, h]
  refine ⟨hbase, fun rest => ?_⟩
  simp only [ingestAll, List.foldl_cons]
  rw [show (processSseDataChunk data rt).1 = rt from by rw [hbase]]

theorem malformed_payload_recovery_witness :
    processSseDataChunk ("\x7bnot json".toList) ('k' :: 'e' :: 'e' :: 'p' :: []) =
      ('k' :: 'e' :: 'e' :: 'p' :: [], false) :=
  (malformed_payload_recovery ("\x7bnot json".toList)
    ('k' :: 'e' :: 'e' :: 'p' :: []) rfl).1

/-- C7: Carriage-return invariance: two chunk streams whose concatenated
    texts agree after removing every carriage return make the read loop
    emit the same event payloads and leave the same remaining buffer, and
    make the whole demuxing (flush included) emit the same payloads. -/
theorem carriage_return_invariance (chunks chunks' : List (List Char))
    (h : stripCR chunks.flatten = stripCR chunks'.flatten) :
    feedLoop chunks [] = feedLoop chunks' [] ∧
    feedAll chunks = feedAll chunks' := by
  constructor
  · rw [feedLoop_eq_onePass chunks [] (by simp) rfl,
      feedLoop_eq_onePass chunks' [] (by simp) rfl]
    simp only [List.nil_append]
    unfold consumeSseEvents
    rw [h]
  · rw [feedAll_eq_onePass, feedAll_eq_onePass]
    unfold consumeSseEvents
    rw [stripCR_append, stripCR_append, h]

theorem carriage_return_invariance_witness :
    feedAll [("data:\ra\r\n\r\n".toList)] = feedAll [("data:a\n\n".toList)] :=
  (carriage_return_invariance _ _ (by decide)).2

/-- C8: A complete record with no qualifying line is dropped: if no line
    of the record starts with `"data:"`, `consumeSseEvents` consumes the
    record and its terminator but emits no payload for it — the output is
    that of the rest of the buffer alone. -/
theorem no_data_record_dropped (r rest : List Char)
    (h1 : '\r' ∉ r)
    (h2 : ¬ (['\n', '\n'] <:+: (r ++ ['\n'])))
    (h3 : ∀ l ∈ splitLines r, startsWithData l = false) :
    consumeSseEvents (r ++ '\n' :: '\n' :: rest) = consumeSseEvents rest := by
  have hstrip : stripCR (r ++ '\n' :: '\n' :: rest) =
      r ++ '\n' :: '\n' :: stripCR rest := by
    unfold stripCR
    rw [List.filter_append]
    rw [show (r.filter fun c => c != '\r') = r from stripCR_eq_self_of h1]
    simp
  unfold consumeSseEvents
  rw [hstrip]
  rw [consumeSseEventsAux_of_some (splitAtTerminator_first r (stripCR rest) h2)]
  have hpr : processRecord r = none := by
    have hfm : (splitLines r).filterMap
        (fun line => if startsWithData line then some (trimStart (line.drop 5))
          else none) = [] :=
      List.filterMap_eq_nil_iff.mpr (fun l hl => by simp [h3 l hl])
    unfold processRecord
    simp [hfm]
  rw [hpr]

theorem no_data_record_dropped_witness :
    consumeSseEvents ((": ping".toList) ++ '\n' :: '\n' :: ("data: x\n\n".toList)) =
      consumeSseEvents ("data: x\n\n".toList) :=
  no_data_record_dropped _ _ (by decide) (by decide) (by decide)
